import Mathlib

/-!
Verification of the WatermarkRemover processing pipeline.

This file gives a shallow embedding, in Lean 4, of the parts of the
repository that its specification makes claims about:

* the keyframe / zone timeline (`src/core/keyframe_manager.py` and
  `propainter/processor.py::get_zones_at_frame`),
* mask synthesis (`propainter/processor.py::create_mask_from_zones`),
* the batched inpainting call (`LamaInpainter.process_video` /
  `LamaInpainter.inpaint_frame`),
* the chunked processing pipeline with cancellation and the
  mux-or-fallback finalize step (`propainter/processor.py::process_video`
  together with `src/app.py::ProcessingWorker.run`),
* sidecar persistence (`KeyframeManager.to_dict/from_dict/
  save_to_file/load_from_file`).

Frames are modelled as values of an abstract type `F`: the pipeline never
inspects pixel data of a frame, it only moves frames around (the
`cv2.cvtColor` BGR/RGB conversions are inverse channel permutations and
are absorbed into the frame representation, which is held in one
canonical colour layout).  Masks are modelled concretely, since the code
branches on their content (`np.any(mask > 0)`).  Machine integers are
modelled as `Int` / `Nat`: none of the embedded code can overflow Python
integers, which are unbounded.
-/

namespace WatermarkRemover

/-- A watermark zone `(x1, y1, x2, y2)` in source pixel coordinates,
as in `keyframe_manager.py` (`Zone = Tuple[int, int, int, int]`). -/
abbrev Zone : Type := Int × Int × Int × Int

/-- The Zone invariant from the data model: `x1 < x2`, `y1 < y2`,
coordinates within `[0, width] × [0, height]`. -/
def ZoneInv (width height : Nat) (z : Zone) : Prop :=
  0 ≤ z.1 ∧ z.1 < z.2.2.1 ∧ z.2.2.1 ≤ (width : Int) ∧
  0 ≤ z.2.1 ∧ z.2.1 < z.2.2.2 ∧ z.2.2.2 ≤ (height : Int)

instance (width height : Nat) (z : Zone) : Decidable (ZoneInv width height z) := by
  unfold ZoneInv
  infer_instance

/-- The in-memory keyframe table `KeyframeManager._keyframes`
(`{frame_number: [(x1, y1, x2, y2), ...]}`), as an association list:
a Python `dict` with unique keys, in insertion order. -/
abbrev Keyframes : Type := List (Nat × List Zone)

/-- Dictionary lookup `d[k]` on the association-list model (first
matching key; keys of a Python dict are unique). -/
def lookupD {α : Type} (l : List (Nat × α)) (k : Nat) : Option α :=
  (l.find? (fun p => p.1 == k)).map (·.2)

/-- Python's `max` over a list of naturals (`max(valid_keyframes)`);
`0` on the empty list, on which the source never calls it. -/
def pyMax : List Nat → Nat
  | [] => 0
  | x :: xs => max x (pyMax xs)

/-- `KeyframeManager.get_zones_at_frame` (keyframe_manager.py lines
95-104): the zone list of the nearest keyframe at or before `frame`,
or `[]` when the table is empty or no keyframe is `≤ frame`.
`propainter/processor.py::get_zones_at_frame` is the same computation
after normalising dict keys to `int`.  The source's final
`self._keyframes[nearest].copy()` cannot fail because `nearest` is a
key; `getD []` is the total-function rendering of that lookup.  The
`.copy()` is the identity on values; its heap effect is modelled
separately by `getZonesAtFrameH` below. -/
def get_zones_at_frame (kfs : Keyframes) (frame : Nat) : List Zone :=
  if kfs = [] then []
  else
    let valid := (kfs.map (·.1)).filter (fun k => k ≤ frame)
    if valid = [] then []
    else (lookupD kfs (pyMax valid)).getD []

/-! ## Mask synthesis (`propainter/processor.py::create_mask_from_zones`) -/

/-- A `uint8` raster of shape `(height, width)`, as produced by
`np.zeros((height, width), dtype=np.uint8)` and transformed by slice
assignment and `cv2.dilate`.  `data y x` is the value at row `y`,
column `x`; values outside the shape are irrelevant. -/
structure Mask where
  height : Nat
  width : Nat
  data : Nat → Nat → Nat

/-- `np.zeros((height, width), dtype=np.uint8)`. -/
def zeroMask (width height : Nat) : Mask :=
  ⟨height, width, fun _ _ => 0⟩

/-- One iteration of the zone loop body of `create_mask_from_zones`:
pad by 8, clamp to the frame (`max(0, ·)` / `min(width, ·)` and
`min(height, ·)`), then the slice assignment `mask[y1:y2, x1:x2] = 255`.
The clamped lower bounds are nonnegative, so no negative-index
wrap-around of numpy slicing arises for the upper bounds the theorems
use (the Zone invariant keeps `x2 + 8` and `y2 + 8` positive). -/
def fillZone (width height : Nat) (m : Mask) (z : Zone) : Mask :=
  let x1 := max 0 (z.1 - 8)
  let y1 := max 0 (z.2.1 - 8)
  let x2 := min (width : Int) (z.2.2.1 + 8)
  let y2 := min (height : Int) (z.2.2.2 + 8)
  ⟨m.height, m.width, fun y x =>
    if y1 ≤ (y : Int) ∧ (y : Int) < y2 ∧ x1 ≤ (x : Int) ∧ (x : Int) < x2
    then 255 else m.data y x⟩

/-- The 25 offsets of the 5×5 all-ones structuring element
`np.ones((5, 5), np.uint8)`, anchored at its centre. -/
def offs5 : List Int := [-2, -1, 0, 1, 2]

/-- One `cv2.dilate` pass with the 5×5 all-ones kernel: each output
pixel is the maximum of the input over the 5×5 window, positions
outside the raster contributing nothing (OpenCV's default border for
dilation ignores the outside). -/
def dilate5x5 (m : Mask) : Mask :=
  ⟨m.height, m.width, fun y x =>
    (offs5.flatMap (fun dy => offs5.map (fun dx =>
      if 0 ≤ (y : Int) + dy ∧ (y : Int) + dy < (m.height : Int) ∧
         0 ≤ (x : Int) + dx ∧ (x : Int) + dx < (m.width : Int)
      then m.data ((y : Int) + dy).toNat ((x : Int) + dx).toNat else 0))).foldl Nat.max 0⟩

/-- `create_mask_from_zones(width, height, zones)` (processor.py lines
68-85): zero raster, fill every padded-and-clamped zone with 255, then
`cv2.dilate(mask, kernel, iterations=2)` once over the merged raster. -/
def create_mask_from_zones (width height : Nat) (zones : List Zone) : Mask :=
  dilate5x5 (dilate5x5 (zones.foldl (fillZone width height) (zeroMask width height)))

/-- `np.any(mask > 0)`: does the raster contain any positive value? -/
def anyPos (m : Mask) : Bool :=
  (List.range m.height).any (fun y =>
    (List.range m.width).any (fun x => decide (0 < m.data y x)))

/-! ## Batched inpainting (`LamaInpainter`)

The LaMa network itself is the external inpainting capability: it is
modelled as `model : Option (F → Mask → F)`, where `none` is the state
`self.model is None` left by a failed `_load_model`, and `some f` an
arbitrary loaded model (the result resize of `inpaint_frame` is
absorbed into `f`).  The pipeline's own logic never looks inside a
frame, so the frame type `F` stays abstract. -/

/-- `LamaInpainter.inpaint_frame` (processor.py lines 32-44): return
the frame untouched when the mask has no positive pixel or no model is
loaded; otherwise invoke the model. -/
def inpaint_frame {F : Type} (model : Option (F → Mask → F)) (frame : F) (mask : Mask) : F :=
  match model with
  | none => frame
  | some f => if anyPos mask then f frame mask else frame

/-- `LamaInpainter.process_video` (processor.py lines 46-61): the batch
call over parallel frame/mask lists (`zip`), calling `inpaint_frame`
exactly on the frames whose mask has a positive pixel and passing every
other frame through. -/
def lamaProcessVideo {F : Type} (model : Option (F → Mask → F))
    (frames : List F) (masks : List Mask) : List F :=
  (frames.zip masks).map (fun p => if anyPos p.2 then inpaint_frame model p.1 p.2 else p.1)

/-- The indices of the batch at which `LamaInpainter.process_video`
takes its `np.any(mask > 0)` branch, i.e. at which `inpaint_frame` is
invoked (read off the same loop as `lamaProcessVideo`). -/
def lamaInvoked (masks : List Mask) : List Nat :=
  (masks.enum.filter (fun p => anyPos p.2)).map (·.1)

/-! ## The chunked pipeline (`propainter/processor.py::process_video`)

`process_video` decodes frames in order, buffers `(frame, mask)` pairs,
flushes a full chunk through `LamaInpainter.process_video` into the raw
`VideoWriter` sink at `output_path + ".temp.avi"`, flushes the partial
chunk after the loop, releases the capture and the writer, and then
muxes the temp file to the target (`convert_to_mp4` + `os.remove`) with
a `shutil.move` fallback on any exception.

The progress callback supplied by `ProcessingWorker.run` (src/app.py
lines 61-64) raises `InterruptedError` when the cancellation flag is
set; it is modelled by `cancel : Nat → Bool` applied to the value
`frame_idx` passed to the callback (the number of frames consumed so
far).  The exception propagates out of `process_video` — past the final
flush, `cap.release()`, `out.release()` and the finalize step, none of
which is in a `finally` block — and is caught in
`ProcessingWorker.run`, which reports the cancelled outcome. -/

/-- Outcome of one pipeline job as observed by `ProcessingWorker.run`:
normal completion (`finished` signal) or the `InterruptedError` path
(`error "Processing cancelled"` signal). -/
inductive RunOutcome where
  | ok
  | cancelled
deriving DecidableEq

/-- What ends up at the requested output path: the ffmpeg-muxed file,
or the raw intermediate moved there by the fallback.  The payload is
the frame sequence of the raw stream the file was produced from. -/
inductive TargetContent (F : Type) where
  | muxed (frames : List F)
  | raw (frames : List F)
deriving DecidableEq

/-- Observable filesystem / resource state after a pipeline run:
the frames written to the raw temp sink, whether the temp file still
exists, what is at the target output path (`none` = nothing), and
whether `cap.release()` / `out.release()` were reached. -/
structure RunState (F : Type) where
  written : List F
  tempExists : Bool
  target : Option (TargetContent F)
  capReleased : Bool
  outReleased : Bool
deriving DecidableEq

/-- The per-frame mask computation of the pipeline loop (processor.py
lines 133-138): zones from the keyframe table, `create_mask_from_zones`
when nonempty, an all-zero raster otherwise. -/
def frameMask (kfs : Keyframes) (width height : Nat) (idx : Nat) : Mask :=
  let zones := get_zones_at_frame kfs idx
  if zones = [] then zeroMask width height
  else create_mask_from_zones width height zones

/-- The `while True` loop of `process_video` (processor.py lines
127-153) over the remaining frames, carrying `frame_idx`, the two
parallel buffers and the frames written so far.  Returns
`(completed, written, frames_buffer, masks_buffer)`; `completed` is
`false` when the progress callback raised `InterruptedError`.  A full
chunk is flushed before the callback runs, so a chunk already submitted
always completes before cancellation takes effect. -/
def pipeLoop {F : Type} (model : Option (F → Mask → F)) (kfs : Keyframes)
    (width height chunkSize : Nat) (cancel : Nat → Bool) :
    List F → Nat → List F → List Mask → List F →
    Bool × List F × List F × List Mask
  | [], _, fbuf, mbuf, written => (true, written, fbuf, mbuf)
  | f :: rest, idx, fbuf, mbuf, written =>
    let m := frameMask kfs width height idx
    let fbuf1 := fbuf ++ [f]
    let mbuf1 := mbuf ++ [m]
    let flush := chunkSize ≤ fbuf1.length
    let written1 := if flush then written ++ lamaProcessVideo model fbuf1 mbuf1 else written
    let fbuf2 := if flush then [] else fbuf1
    let mbuf2 := if flush then [] else mbuf1
    if cancel (idx + 1) then (false, written1, fbuf2, mbuf2)
    else pipeLoop model kfs width height chunkSize cancel rest (idx + 1) fbuf2 mbuf2 written1

/-- `process_video` (processor.py lines 99-171), driven by the decoded
frame sequence of the source.  `muxOk` abstracts the external boundary:
`true` when `convert_to_mp4` and the subsequent `os.remove` succeed,
`false` when `convert_to_mp4` raises (ffmpeg missing, codec rejection)
and the `shutil.move` fallback runs.  The `VideoWriter` creates the
temp file when opened, so `tempExists` is true from the start of the
run. -/
def process_video_run {F : Type} (model : Option (F → Mask → F)) (kfs : Keyframes)
    (width height chunkSize : Nat) (cancel : Nat → Bool) (muxOk : Bool)
    (frames : List F) : RunOutcome × RunState F :=
  match pipeLoop model kfs width height chunkSize cancel frames 0 [] [] [] with
  | (false, written, _, _) =>
    -- InterruptedError propagates: no final flush, no release, no finalize.
    (.cancelled, ⟨written, true, none, false, false⟩)
  | (true, written, fbuf, mbuf) =>
    let written1 := if fbuf.isEmpty then written else written ++ lamaProcessVideo model fbuf mbuf
    -- cap.release(); out.release(); then finalize.
    if muxOk then (.ok, ⟨written1, false, some (.muxed written1), true, true⟩)
    else (.ok, ⟨written1, false, some (.raw written1), true, true⟩)

/-- What the pipeline does to one frame at index `idx`: the result the
batch call produces for it (inpainted when its mask has a positive
pixel and a model is loaded, the frame itself otherwise). -/
def framePointwise {F : Type} (model : Option (F → Mask → F)) (kfs : Keyframes)
    (width height : Nat) (idx : Nat) (f : F) : F :=
  let m := frameMask kfs width height idx
  if anyPos m then inpaint_frame model f m else f

/-- The frame list `[framePointwise idx f₀, framePointwise (idx+1) f₁, ...]`:
the pipeline's per-frame transform applied in input order starting at
frame index `idx`. -/
def pointwiseFrom {F : Type} (model : Option (F → Mask → F)) (kfs : Keyframes)
    (width height : Nat) : Nat → List F → List F
  | _, [] => []
  | idx, f :: rest =>
    framePointwise model kfs width height idx f ::
      pointwiseFrom model kfs width height (idx + 1) rest

/-! ## Sidecar persistence (`KeyframeManager.to_dict/from_dict`,
`save_to_file/load_from_file`)

Python strings are modelled as lists of character codes (`PyStr`), and
the JSON values the `json` library produces/consumes as the inductive
`Json`.  `json.dump`/`json.load` faithfully round-trip such documents
(tuples are encoded as JSON arrays and decoded back as lists, which is
why the value side of a loaded table is `Json`, not `Zone`). -/

/-- A Python string as its list of character codes. -/
abbrev PyStr : Type := List Nat

/-- A JSON value as produced by `json.load` (numbers restricted to the
integers, the only numbers the embedded documents contain). -/
inductive Json where
  | null
  | bool (b : Bool)
  | num (n : Int)
  | str (s : PyStr)
  | arr (xs : List Json)
  | obj (kvs : List (PyStr × Json))

/-- The Python exceptions `load_from_file` does *not* catch: its
`except` clause lists only `json.JSONDecodeError` and `IOError`. -/
inductive PyErr where
  | attributeError
  | valueError
deriving DecidableEq

/-- The character code of decimal digit `d` (`'0'` is 48). -/
def digitChar (d : Nat) : Nat := 48 + d

/-- `charToDigit? c`: the decimal value of a digit character code. -/
def charToDigit? (c : Nat) : Option Nat :=
  if 48 ≤ c ∧ c ≤ 57 then some (c - 48) else none

/-- Accumulating decimal evaluation of a digit string, most significant
digit first; `none` on any non-digit character. -/
def digitsAcc : List Nat → Nat → Option Nat
  | [], acc => some acc
  | c :: cs, acc =>
    match charToDigit? c with
    | some d => digitsAcc cs (acc * 10 + d)
    | none => none

/-- The value of a nonempty all-digit string; `none` otherwise. -/
def digitsVal? (s : PyStr) : Option Nat :=
  if s = [] then none else digitsAcc s 0

/-- Python's `int(s)` on a string, as used on dict keys by `from_dict`:
an optional minus sign followed by a nonempty digit run; anything else
raises `ValueError`, rendered as `none`.  (Python also tolerates
surrounding whitespace, a plus sign and underscores; those forms never
arise in this system's documents and are not modelled.) -/
def pyIntOfStr (s : PyStr) : Option Int :=
  match s with
  | [] => none
  | c :: rest =>
    if c = 45 then (digitsVal? rest).map (fun n => -(n : Int))
    else (digitsVal? (c :: rest)).map (fun n => (n : Int))

/-- Python's `str(n)` on a natural number: its decimal digit string. -/
def natToStr (n : Nat) : PyStr :=
  if n = 0 then [digitChar 0]
  else (Nat.digits 10 n).reverse.map digitChar

/-- `json.dump`'s encoding of one zone tuple: a 4-element JSON array. -/
def zoneToJson (z : Zone) : Json :=
  .arr [.num z.1, .num z.2.1, .num z.2.2.1, .num z.2.2.2]

/-- `KeyframeManager.to_dict` (line 135, `{str(k): v for k, v in
self._keyframes.items()}`) composed with `json.dump`'s encoding of the
value side: decimal string keys, zone lists as arrays of 4-element
arrays. -/
def to_dict (kf : List (Nat × List Zone)) : List (PyStr × Json) :=
  kf.map (fun p => (natToStr p.1, Json.arr (p.2.map zoneToJson)))

/-- The sidecar document `save_to_file` writes at
`<video_path>.zones.json` (lines 146-159): the JSON object of
`to_dict`. -/
def save_doc (kf : List (Nat × List Zone)) : Json :=
  .obj (to_dict kf)

/-- `KeyframeManager.from_dict` (line 144,
`self._keyframes = {int(k): v for k, v in data.items()}`) at the JSON
level: `.items()` on a non-object raises `AttributeError`; `int(k)` on
a non-numeric key raises `ValueError`; the comprehension is evaluated
in full before `self._keyframes` is assigned, so on an error the
in-memory table is untouched. -/
def convKeys : List (PyStr × Json) → Except PyErr (List (Int × Json))
  | [] => Except.ok []
  | p :: t =>
    match pyIntOfStr p.1 with
    | some n =>
      match convKeys t with
      | Except.ok r => Except.ok ((n, p.2) :: r)
      | Except.error e => Except.error e
    | none => Except.error PyErr.valueError

def from_dict (j : Json) : Except PyErr (List (Int × Json)) :=
  match j with
  | .obj kvs => convKeys kvs
  | _ => Except.error PyErr.attributeError

/-- What sits at the sidecar path: no file, a file whose content the
`json` parser rejects (`JSONDecodeError`, which also stands for an
`IOError` while reading — both are caught), or a parsed JSON value. -/
inductive FileContent where
  | missing
  | unparseable
  | parsed (j : Json)

/-- `KeyframeManager.load_from_file` (lines 161-180) on the in-memory
table `st`: `False` leaving `st` unchanged when the file is missing or
unreadable/unparseable; otherwise `from_dict` runs inside the `try`,
and its `AttributeError`/`ValueError` are not in the `except` clause,
so they propagate to the caller. -/
def load_from_file (file : FileContent) (st : List (Int × Json)) :
    Except PyErr (Bool × List (Int × Json)) :=
  match file with
  | .missing => Except.ok (false, st)
  | .unparseable => Except.ok (false, st)
  | .parsed j =>
    match from_dict j with
    | .ok kf => Except.ok (true, kf)
    | .error e => Except.error e

/-- Decoding of one zone back out of its JSON encoding. -/
def zoneOfJson : Json → Option Zone
  | .arr [.num a, .num b, .num c, .num d] => some (a, b, c, d)
  | _ => none

/-- Decoding of each element of a JSON array as a zone. -/
def zoneListOfJson : List Json → Option (List Zone)
  | [] => some []
  | j :: t =>
    match zoneOfJson j, zoneListOfJson t with
    | some z, some r => some (z :: r)
    | _, _ => none

/-- Decoding of a zone list back out of its JSON encoding. -/
def zonesOfJson : Json → Option (List Zone)
  | .arr xs => zoneListOfJson xs
  | _ => none

/-! ## Reference semantics of `get_zones_at_frame` (`.copy()`)

`KeyframeManager.get_zones_at_frame` ends in
`self._keyframes[nearest].copy()`: the caller receives a *fresh* list
object, so mutating it cannot reach the timeline.  To express that,
the Python heap is made explicit: `_keyframes` maps frame numbers to
*addresses* of list objects living in a store. -/

/-- The heap-level state of a `KeyframeManager`: `keyframes` maps frame
numbers to addresses, `store` maps addresses to list objects, `next` is
the next fresh address. -/
structure KMHeap where
  keyframes : List (Nat × Nat)
  store : List (Nat × List Zone)
  next : Nat

/-- Dereference a list address (addresses handed out by this model are
always in the store; `[]` is the junk value for a dangling address). -/
def heapRead (h : KMHeap) (a : Nat) : List Zone :=
  (lookupD h.store a).getD []

/-- In-place mutation of the list object at address `a` (what Python's
`list.append` / `list.pop` / slice assignment do to the object). -/
def heapWrite (h : KMHeap) (a : Nat) (l : List Zone) : KMHeap :=
  { h with store := h.store.map (fun p => if p.1 = a then (p.1, l) else p) }

/-- Allocation of a fresh list object with contents `l` (what a list
display `[]` or `.copy()` does), returning the new heap and the
address. -/
def heapAlloc (h : KMHeap) (l : List Zone) : KMHeap × Nat :=
  ({ h with store := h.store ++ [(h.next, l)], next := h.next + 1 }, h.next)

/-- `KeyframeManager.get_zones_at_frame` at the heap level (lines
95-104): both `return []` branches allocate a fresh empty list, the
final branch allocates `.copy()` of the stored list at the nearest
keyframe. -/
def getZonesAtFrameH (h : KMHeap) (frame : Nat) : KMHeap × Nat :=
  if h.keyframes = [] then heapAlloc h []
  else
    let valid := (h.keyframes.map (·.1)).filter (fun k => k ≤ frame)
    if valid = [] then heapAlloc h []
    else heapAlloc h (heapRead h ((lookupD h.keyframes (pyMax valid)).getD 0))

/-- The value-level timeline a heap denotes: each keyframe's address
dereferenced, then the pure `get_zones_at_frame`. -/
def kfView (h : KMHeap) (frame : Nat) : List Zone :=
  get_zones_at_frame (h.keyframes.map (fun p => (p.1, heapRead h p.2))) frame

/-- Heap well-formedness: every address already handed out is below
`next` (so fresh allocations never alias). -/
def KMHeapWF (h : KMHeap) : Prop :=
  (∀ p ∈ h.keyframes, p.2 < h.next) ∧ (∀ p ∈ h.store, p.1 < h.next)

instance (h : KMHeap) : Decidable (KMHeapWF h) := by
  unfold KMHeapWF
  infer_instance

/-! # Theorems -/

/-! ## Timeline lookup (C3) -/

theorem pyMax_mem : ∀ {l : List Nat}, l ≠ [] → pyMax l ∈ l := by
  intro l
  induction l with
  | nil => intro h; exact absurd rfl h
  | cons x xs ih =>
    intro _
    by_cases hxs : xs = []
    · subst hxs
      simp [pyMax]
    · rcases Nat.le_total (pyMax xs) x with h | h
      · show max x (pyMax xs) ∈ x :: xs
        rw [max_eq_left h]
        exact List.mem_cons_self x xs
      · show max x (pyMax xs) ∈ x :: xs
        rw [max_eq_right h]
        exact List.mem_cons_of_mem x (ih hxs)

theorem le_pyMax : ∀ {l : List Nat} {a : Nat}, a ∈ l → a ≤ pyMax l := by
  intro l
  induction l with
  | nil => intro a h; cases h
  | cons x xs ih =>
    intro a h
    rcases List.mem_cons.mp h with h | h
    · subst h; exact le_max_left a (pyMax xs)
    · exact Nat.le_trans (ih h) (le_max_right x (pyMax xs))

theorem lookupD_eq_some_of_nodup {α : Type} :
    ∀ {l : List (Nat × α)} {k : Nat} {v : α},
      (l.map (·.1)).Nodup → (k, v) ∈ l → lookupD l k = some v := by
  intro l
  induction l with
  | nil => intro k v _ h; cases h
  | cons p t ih =>
    intro k v hnd hmem
    rw [List.map_cons, List.nodup_cons] at hnd
    by_cases hk : p.1 = k
    · have hv : v = p.2 := by
        rcases List.mem_cons.mp hmem with h | h
        · rw [← h]
        · exfalso
          exact hnd.1 (hk ▸ List.mem_map.mpr ⟨(k, v), h, rfl⟩)
      have hfind : List.find? (fun q => q.1 == k) (p :: t) = some p :=
        List.find?_cons_of_pos _ (by simp [hk])
      simp [lookupD, hfind, hv]
    · have hmem' : (k, v) ∈ t := by
        rcases List.mem_cons.mp hmem with h | h
        · exact absurd (congrArg Prod.fst h.symm) hk
        · exact h
      have hrec : lookupD t k = some v := ih hnd.2 hmem'
      have hfind : List.find? (fun q => q.1 == k) (p :: t) =
          List.find? (fun q => q.1 == k) t :=
        List.find?_cons_of_neg _ (by simp [hk])
      unfold lookupD at hrec ⊢
      rw [hfind]
      exact hrec

/-- C3: for every frame index `f` and keyframe mapping,
`get_zones_at_frame` returns the zone list of the greatest keyframe
index `k ≤ f`, and returns `[]` when no keyframe index is `≤ f`
(which subsumes the empty mapping). -/
theorem get_zones_at_frame_nearest (kfs : Keyframes) (f : Nat)
    (hnd : (kfs.map (·.1)).Nodup) :
    ((∀ p ∈ kfs, f < p.1) → get_zones_at_frame kfs f = []) ∧
    (∀ k zs, (k, zs) ∈ kfs → k ≤ f →
      (∀ p ∈ kfs, p.1 ≤ f → p.1 ≤ k) →
      get_zones_at_frame kfs f = zs) := by
  constructor
  · intro hall
    by_cases hkfs : kfs = []
    · simp [get_zones_at_frame, hkfs]
    · have hval : (kfs.map (·.1)).filter (fun k => k ≤ f) = [] := by
        rw [List.filter_eq_nil_iff]
        intro a ha
        rcases List.mem_map.mp ha with ⟨p, hp, hpa⟩
        have := hall p hp
        simp only [decide_eq_true_eq]
        omega
      simp [get_zones_at_frame, hkfs, hval]
  · intro k zs hmem hkf hmax
    have hkfs : kfs ≠ [] := by
      intro h; rw [h] at hmem; cases hmem
    have hkval : k ∈ (kfs.map (·.1)).filter (fun k => k ≤ f) := by
      rw [List.mem_filter]
      exact ⟨List.mem_map.mpr ⟨(k, zs), hmem, rfl⟩, by simpa using hkf⟩
    have hval : (kfs.map (·.1)).filter (fun k => k ≤ f) ≠ [] := by
      intro h; rw [h] at hkval; cases hkval
    have hmx : pyMax ((kfs.map (·.1)).filter (fun k => k ≤ f)) = k := by
      apply Nat.le_antisymm
      · have hmem' := pyMax_mem hval
        rw [List.mem_filter] at hmem'
        rcases List.mem_map.mp hmem'.1 with ⟨p, hp, hpa⟩
        have hle : p.1 ≤ f := by
          have := hmem'.2; rw [← hpa] at this; simpa using this
        rw [← hpa]
        exact hmax p hp hle
      · exact le_pyMax hkval
    have hlook : lookupD kfs k = some zs := lookupD_eq_some_of_nodup hnd hmem
    simp [get_zones_at_frame, hkfs, hval, hmx, hlook]

/-- C3 witness: the spec's example `{0:[A], 10:[B]}` gives
`zonesAt(5) = [A]`, `zonesAt(15) = [B]`, `zonesAt(0) = [A]`. -/
theorem get_zones_at_frame_nearest_witness :
    get_zones_at_frame [(0, [((1, 2, 3, 4) : Zone)]), (10, [((5, 6, 7, 8) : Zone)])] 5
      = [((1, 2, 3, 4) : Zone)] ∧
    get_zones_at_frame [(0, [((1, 2, 3, 4) : Zone)]), (10, [((5, 6, 7, 8) : Zone)])] 15
      = [((5, 6, 7, 8) : Zone)] ∧
    get_zones_at_frame [(0, [((1, 2, 3, 4) : Zone)]), (10, [((5, 6, 7, 8) : Zone)])] 0
      = [((1, 2, 3, 4) : Zone)] := by
  refine ⟨?_, ?_, ?_⟩
  · exact (get_zones_at_frame_nearest _ 5 (by decide)).2 0 _ (by decide)
      (by decide) (by decide)
  · exact (get_zones_at_frame_nearest _ 15 (by decide)).2 10 _ (by decide)
      (by decide) (by decide)
  · exact (get_zones_at_frame_nearest _ 0 (by decide)).2 0 _ (by decide)
      (by decide) (by decide)

/-! ## Pipeline lemmas (C1, C2, C4, C5, C6) -/

theorem zip_append_singleton {α β : Type} :
    ∀ (l1 : List α) (l2 : List β) (a : α) (b : β), l1.length = l2.length →
      (l1 ++ [a]).zip (l2 ++ [b]) = l1.zip l2 ++ [(a, b)] := by
  intro l1
  induction l1 with
  | nil =>
    intro l2 a b h
    cases l2 with
    | nil => simp
    | cons y ys => simp at h
  | cons x xs ih =>
    intro l2 a b h
    cases l2 with
    | nil => simp at h
    | cons y ys =>
      simp only [List.cons_append, List.zip_cons_cons]
      rw [ih ys a b (by simpa using h)]

theorem lama_append_singleton {F : Type} (model : Option (F → Mask → F))
    (fbuf : List F) (mbuf : List Mask) (f : F) (m : Mask)
    (h : fbuf.length = mbuf.length) :
    lamaProcessVideo model (fbuf ++ [f]) (mbuf ++ [m]) =
      lamaProcessVideo model fbuf mbuf ++
        [if anyPos m then inpaint_frame model f m else f] := by
  unfold lamaProcessVideo
  rw [zip_append_singleton fbuf mbuf f m h, List.map_append]
  rfl

theorem lama_nil {F : Type} (model : Option (F → Mask → F)) (mbuf : List Mask) :
    lamaProcessVideo model [] mbuf = [] := by
  simp [lamaProcessVideo]

/-- With a cancellation flag that is never set, the loop completes and
the frames written plus the pending buffer processed equal the initial
`written`, the initial buffer processed, and the per-frame transform of
the remaining input, in order. -/
theorem pipeLoop_no_cancel {F : Type} (model : Option (F → Mask → F))
    (kfs : Keyframes) (wdt hgt chunk : Nat) (cancel : Nat → Bool)
    (hc : ∀ n, cancel n = false) :
    ∀ (rest : List F) (idx : Nat) (fbuf : List F) (mbuf : List Mask) (written : List F),
      fbuf.length = mbuf.length →
      ∃ w fb mb,
        pipeLoop model kfs wdt hgt chunk cancel rest idx fbuf mbuf written =
          (true, w, fb, mb) ∧
        fb.length = mb.length ∧
        w ++ lamaProcessVideo model fb mb =
          written ++ lamaProcessVideo model fbuf mbuf ++
            pointwiseFrom model kfs wdt hgt idx rest := by
  intro rest
  induction rest with
  | nil =>
    intro idx fbuf mbuf written hlen
    exact ⟨written, fbuf, mbuf, rfl, hlen, by simp [pointwiseFrom]⟩
  | cons f rest ih =>
    intro idx fbuf mbuf written hlen
    have hstep : lamaProcessVideo model (fbuf ++ [f])
        (mbuf ++ [frameMask kfs wdt hgt idx]) =
        lamaProcessVideo model fbuf mbuf ++
          [framePointwise model kfs wdt hgt idx f] := by
      rw [lama_append_singleton model fbuf mbuf f _ hlen]
      rfl
    by_cases hfl : chunk ≤ fbuf.length + 1
    · have hunf : pipeLoop model kfs wdt hgt chunk cancel (f :: rest) idx fbuf mbuf written =
          pipeLoop model kfs wdt hgt chunk cancel rest (idx + 1) [] []
            (written ++ lamaProcessVideo model (fbuf ++ [f])
              (mbuf ++ [frameMask kfs wdt hgt idx])) := by
        simp [pipeLoop, hc (idx + 1), hfl]
      rcases ih (idx + 1) [] [] _ rfl with ⟨w, fb, mb, heq, hl, hw⟩
      refine ⟨w, fb, mb, hunf.trans heq, hl, ?_⟩
      rw [hw, hstep]
      simp [pointwiseFrom, lama_nil, List.append_assoc]
    · have hunf : pipeLoop model kfs wdt hgt chunk cancel (f :: rest) idx fbuf mbuf written =
          pipeLoop model kfs wdt hgt chunk cancel rest (idx + 1) (fbuf ++ [f])
            (mbuf ++ [frameMask kfs wdt hgt idx]) written := by
        simp [pipeLoop, hc (idx + 1), hfl]
      have hlen1 : (fbuf ++ [f]).length = (mbuf ++ [frameMask kfs wdt hgt idx]).length := by
        simp [hlen]
      rcases ih (idx + 1) (fbuf ++ [f]) (mbuf ++ [frameMask kfs wdt hgt idx]) written hlen1
        with ⟨w, fb, mb, heq, hl, hw⟩
      refine ⟨w, fb, mb, hunf.trans heq, hl, ?_⟩
      rw [hw, hstep]
      simp [pointwiseFrom, List.append_assoc]

/-- A run without cancellation: completes with outcome `ok`, writes
exactly the per-frame transform of the input in input order, deletes
the temp file, releases both handles, and materialises the target with
the muxed stream or, on mux failure, the raw stream itself. -/
theorem process_video_run_complete {F : Type} (model : Option (F → Mask → F))
    (kfs : Keyframes) (wdt hgt chunk : Nat) (muxOk : Bool) (frames : List F) :
    process_video_run model kfs wdt hgt chunk (fun _ => false) muxOk frames =
      (RunOutcome.ok,
        ⟨pointwiseFrom model kfs wdt hgt 0 frames, false,
          some (if muxOk then TargetContent.muxed (pointwiseFrom model kfs wdt hgt 0 frames)
                else TargetContent.raw (pointwiseFrom model kfs wdt hgt 0 frames)),
          true, true⟩) := by
  rcases pipeLoop_no_cancel model kfs wdt hgt chunk (fun _ => false) (fun _ => rfl)
    frames 0 [] [] [] rfl with ⟨w, fb, mb, heq, hl, hw⟩
  have hw' : w ++ lamaProcessVideo model fb mb = pointwiseFrom model kfs wdt hgt 0 frames := by
    rw [hw]; simp [lama_nil]
  have hw1 : (if fb.isEmpty then w else w ++ lamaProcessVideo model fb mb) =
      pointwiseFrom model kfs wdt hgt 0 frames := by
    by_cases hfb : fb.isEmpty
    · have hfb' : fb = [] := by simpa [List.isEmpty_iff] using hfb
      rw [if_pos hfb, ← hw', hfb', lama_nil]
      simp
    · rw [if_neg hfb, hw']
  unfold process_video_run
  rw [heq]
  by_cases hm : muxOk
  · simp [hm, hw1]
  · simp [hm, hw1]

theorem pointwiseFrom_length {F : Type} (model : Option (F → Mask → F))
    (kfs : Keyframes) (wdt hgt : Nat) :
    ∀ (idx : Nat) (l : List F),
      (pointwiseFrom model kfs wdt hgt idx l).length = l.length := by
  intro idx l
  induction l generalizing idx with
  | nil => rfl
  | cons f rest ih => simp [pointwiseFrom, ih]

theorem pointwiseFrom_none {F : Type} (kfs : Keyframes) (wdt hgt : Nat) :
    ∀ (idx : Nat) (l : List F), pointwiseFrom none kfs wdt hgt idx l = l := by
  intro idx l
  induction l generalizing idx with
  | nil => rfl
  | cons f rest ih =>
    show framePointwise none kfs wdt hgt idx f ::
      pointwiseFrom none kfs wdt hgt (idx + 1) rest = f :: rest
    rw [ih (idx + 1)]
    simp [framePointwise, inpaint_frame]

/-- C1: for every source video with `N` frames and every chunk size
`≥ 1` (including 1 and sizes exceeding `N`), `process_video` writes
exactly `N` frames to the output sink, in input order: the written
stream is the per-frame transform of the input frames at indices
`0..N-1`, in that order. -/
theorem pipeline_output_matches_input {F : Type} (model : Option (F → Mask → F))
    (kfs : Keyframes) (wdt hgt chunk : Nat) (muxOk : Bool) (frames : List F)
    (_hchunk : 1 ≤ chunk) :
    (process_video_run model kfs wdt hgt chunk (fun _ => false) muxOk frames).2.written =
      pointwiseFrom model kfs wdt hgt 0 frames ∧
    ((process_video_run model kfs wdt hgt chunk (fun _ => false) muxOk frames).2.written).length =
      frames.length := by
  rw [process_video_run_complete model kfs wdt hgt chunk muxOk frames]
  exact ⟨rfl, pointwiseFrom_length model kfs wdt hgt 0 frames⟩

/-- C1 witness: a 2-frame source with chunk size 1 (and, separately,
the hypothesis `1 ≤ 1` discharged concretely). -/
theorem pipeline_output_matches_input_witness :
    (process_video_run (F := Nat) none [] 1 1 1 (fun _ => false) true [10, 20]).2.written =
      pointwiseFrom (F := Nat) none [] 1 1 0 [10, 20] ∧
    ((process_video_run (F := Nat) none [] 1 1 1 (fun _ => false) true [10, 20]).2.written).length =
      [10, 20].length :=
  pipeline_output_matches_input none [] 1 1 1 true [10, 20] (by decide)

set_option maxRecDepth 100000 in
/-- C4 counterexample: with the inpainting capability absent
(`_load_model` failed, `self.model is None`) and a watermark zone
present, the pipeline does not abort: `process_video` completes with
outcome `ok` and writes the decoded frame to the output — contradicting
"no frame is decoded, no output is written, and the job aborts with a
configuration error". -/
theorem no_model_not_failfast_counterexample :
    (process_video_run (F := Nat) none [(0, [((0, 0, 1, 1) : Zone)])] 2 2 50
        (fun _ => false) true [7]).1 = RunOutcome.ok ∧
    (process_video_run (F := Nat) none [(0, [((0, 0, 1, 1) : Zone)])] 2 2 50
        (fun _ => false) true [7]).2.written = [7] := by
  exact ⟨rfl, rfl⟩

/-- C4 amended: when the inpainting capability is unavailable the
pipeline does not fail fast; `LamaInpainter._load_model` swallows the
load error and leaves `model = None`, `inpaint_frame` then returns each
frame unchanged, so the job decodes and writes every frame (a pure
passthrough) and completes with outcome `ok` — no configuration error
is ever raised. -/
theorem no_model_passthrough {F : Type} (kfs : Keyframes) (wdt hgt chunk : Nat)
    (muxOk : Bool) (frames : List F) :
    (process_video_run (F := F) none kfs wdt hgt chunk (fun _ => false) muxOk frames).1 =
      RunOutcome.ok ∧
    (process_video_run (F := F) none kfs wdt hgt chunk (fun _ => false) muxOk frames).2.written =
      frames := by
  rw [process_video_run_complete (F := F) none kfs wdt hgt chunk muxOk frames]
  exact ⟨rfl, pointwiseFrom_none kfs wdt hgt 0 frames⟩

/-- C5 counterexample: a cancellation observed at the first progress
checkpoint (after the first chunk of size 1 was flushed) yields the
`cancelled` outcome and no file at the target path, but the temporary
intermediate file still exists and neither the decoder nor the writer
was released — contradicting "every temporary intermediate file is
removed, and the decoder and writer resources are released on that
exit path". -/
theorem cancellation_leaves_temp_counterexample :
    (process_video_run (F := Nat) none [] 1 1 1 (fun n => decide (1 ≤ n)) true [3, 4]).1 =
      RunOutcome.cancelled ∧
    (process_video_run (F := Nat) none [] 1 1 1 (fun n => decide (1 ≤ n)) true [3, 4]).2.written =
      [3] ∧
    (process_video_run (F := Nat) none [] 1 1 1 (fun n => decide (1 ≤ n)) true [3, 4]).2.tempExists =
      true ∧
    (process_video_run (F := Nat) none [] 1 1 1 (fun n => decide (1 ≤ n)) true [3, 4]).2.capReleased =
      false ∧
    (process_video_run (F := Nat) none [] 1 1 1 (fun n => decide (1 ≤ n)) true [3, 4]).2.outReleased =
      false := by
  exact ⟨rfl, rfl, rfl, rfl, rfl⟩

/-- C5 amended: when cancellation is observed at the per-frame progress
checkpoint the job reports the `cancelled` outcome and no file is
materialised at the target output path (the finalize step is never
reached); however the temporary intermediate file is *not* removed and
the decoder and writer are *not* released on that exit path, because
the `InterruptedError` propagates past `cap.release()`/`out.release()`
(no `finally` block) and no cleanup of the temp file exists. -/
theorem cancelled_run_state {F : Type} (model : Option (F → Mask → F))
    (kfs : Keyframes) (wdt hgt chunk : Nat) (cancel : Nat → Bool) (muxOk : Bool)
    (frames : List F)
    (hcan : (process_video_run model kfs wdt hgt chunk cancel muxOk frames).1 =
      RunOutcome.cancelled) :
    (process_video_run model kfs wdt hgt chunk cancel muxOk frames).2.target = none ∧
    (process_video_run model kfs wdt hgt chunk cancel muxOk frames).2.tempExists = true ∧
    (process_video_run model kfs wdt hgt chunk cancel muxOk frames).2.capReleased = false ∧
    (process_video_run model kfs wdt hgt chunk cancel muxOk frames).2.outReleased = false := by
  unfold process_video_run at hcan ⊢
  rcases heq : pipeLoop model kfs wdt hgt chunk cancel frames 0 [] [] [] with ⟨done, w, fb, mb⟩
  rw [heq] at hcan
  cases done
  · exact ⟨rfl, rfl, rfl, rfl⟩
  · exfalso
    by_cases hm : muxOk <;> simp [hm] at hcan

/-- C5 witness: a concrete cancelled run (flag set from the start,
cancellation observed at the first checkpoint, before any flush). -/
theorem cancelled_run_state_witness :
    (process_video_run (F := Nat) none [] 1 1 50 (fun _ => true) true [5]).2.target = none ∧
    (process_video_run (F := Nat) none [] 1 1 50 (fun _ => true) true [5]).2.tempExists = true ∧
    (process_video_run (F := Nat) none [] 1 1 50 (fun _ => true) true [5]).2.capReleased = false ∧
    (process_video_run (F := Nat) none [] 1 1 50 (fun _ => true) true [5]).2.outReleased = false :=
  cancelled_run_state none [] 1 1 50 (fun _ => true) true [5] rfl

/-- C6: for every completed raw stream, the finalize step leaves the
mux result at the output path and deletes the raw intermediate when the
mux succeeds, and moves the raw intermediate itself to the output path
when the mux fails — in both cases the job reports success, the output
path exists afterwards, and the intermediate is neither duplicated nor
deleted while still needed (the temp file is gone exactly because its
content was consumed into, or became, the target). -/
theorem finalize_mux_or_fallback {F : Type} (model : Option (F → Mask → F))
    (kfs : Keyframes) (wdt hgt chunk : Nat) (muxOk : Bool) (frames : List F) :
    (process_video_run model kfs wdt hgt chunk (fun _ => false) muxOk frames).1 =
      RunOutcome.ok ∧
    (process_video_run model kfs wdt hgt chunk (fun _ => false) muxOk frames).2.tempExists =
      false ∧
    (process_video_run model kfs wdt hgt chunk (fun _ => false) muxOk frames).2.target =
      some (if muxOk then
        TargetContent.muxed
          ((process_video_run model kfs wdt hgt chunk (fun _ => false) muxOk frames).2.written)
      else
        TargetContent.raw
          ((process_video_run model kfs wdt hgt chunk (fun _ => false) muxOk frames).2.written)) := by
  rw [process_video_run_complete model kfs wdt hgt chunk muxOk frames]
  exact ⟨rfl, rfl, rfl⟩

theorem lama_zero_getElem? {F : Type} (model : Option (F → Mask → F)) :
    ∀ (frames : List F) (masks : List Mask) (i : Nat) (m : Mask),
      frames.length = masks.length → masks[i]? = some m → anyPos m = false →
      (lamaProcessVideo model frames masks)[i]? = frames[i]? := by
  intro frames
  induction frames with
  | nil =>
    intro masks i m hlen hm _
    cases masks with
    | nil => simp at hm
    | cons _ _ => simp at hlen
  | cons f fs ih =>
    intro masks i m hlen hm hz
    cases masks with
    | nil => simp at hlen
    | cons m0 ms =>
      cases i with
      | zero =>
        have hm0 : m0 = m := by simpa using hm
        subst hm0
        simp [lamaProcessVideo, hz]
      | succ i =>
        have hm' : ms[i]? = some m := by simpa using hm
        have hlen' : fs.length = ms.length := by simpa using hlen
        have := ih ms i m hlen' hm' hz
        simpa [lamaProcessVideo] using this

theorem not_mem_lamaInvoked {masks : List Mask} {i : Nat} {m : Mask}
    (hm : masks[i]? = some m) (hz : anyPos m = false) : i ∉ lamaInvoked masks := by
  intro hmem
  unfold lamaInvoked at hmem
  rcases List.mem_map.mp hmem with ⟨q, hq, hqi⟩
  rcases List.mem_filter.mp hq with ⟨hqe, hqp⟩
  have hget : masks[q.1]? = some q.2 := List.mem_enum_iff_getElem?.mp hqe
  rw [hqi, hm] at hget
  have hq2 : q.2 = m := by
    injection hget.symm
  rw [hq2] at hqp
  rw [hz] at hqp
  cases hqp

/-- C2: in a batch call of `LamaInpainter.process_video` over
equal-length frame/mask lists, every frame whose mask is entirely zero
is returned unmodified (the identical frame value) and `inpaint_frame`
— hence the inpainting model — is never invoked on it. -/
theorem lama_zero_mask_passthrough {F : Type} (model : Option (F → Mask → F))
    (frames : List F) (masks : List Mask) (i : Nat) (m : Mask)
    (hlen : frames.length = masks.length)
    (hm : masks[i]? = some m)
    (hz : anyPos m = false) :
    (lamaProcessVideo model frames masks)[i]? = frames[i]? ∧
    i ∉ lamaInvoked masks :=
  ⟨lama_zero_getElem? model frames masks i m hlen hm hz,
   not_mem_lamaInvoked hm hz⟩

/-- C2 witness: a 2-frame batch whose first mask is solid and whose
second mask is all-zero: the second frame passes through (both sides
evaluate to frame `4`) and index 1 is not among the invoked indices. -/
theorem lama_zero_mask_passthrough_witness :
    (lamaProcessVideo (F := Nat) (some (fun f _ => f + 100)) [3, 4]
        [Mask.mk 1 1 (fun _ _ => 255), zeroMask 1 1])[1]? = [3, 4][1]? ∧
    1 ∉ lamaInvoked [Mask.mk 1 1 (fun _ _ => 255), zeroMask 1 1] :=
  lama_zero_mask_passthrough (some (fun f _ => f + 100)) [3, 4]
    [Mask.mk 1 1 (fun _ _ => 255), zeroMask 1 1] 1 (zeroMask 1 1)
    (by decide) rfl rfl

/-! ## Mask synthesis lemmas (C9) -/

theorem dilate5x5_height (m : Mask) : (dilate5x5 m).height = m.height := by
  dsimp only [dilate5x5]

theorem dilate5x5_width (m : Mask) : (dilate5x5 m).width = m.width := by
  dsimp only [dilate5x5]

theorem zeroMask_height (w h : Nat) : (zeroMask w h).height = h := rfl

theorem zeroMask_width (w h : Nat) : (zeroMask w h).width = w := rfl

theorem create_mask_eq (w h : Nat) (zs : List Zone) :
    create_mask_from_zones w h zs =
      dilate5x5 (dilate5x5 (zs.foldl (fillZone w h) (zeroMask w h))) := by
  dsimp only [create_mask_from_zones]

theorem dilate5x5_data (m : Mask) (y x : Nat) :
    (dilate5x5 m).data y x =
      (offs5.flatMap (fun dy => offs5.map (fun dx =>
        if 0 ≤ (y : Int) + dy ∧ (y : Int) + dy < (m.height : Int) ∧
           0 ≤ (x : Int) + dx ∧ (x : Int) + dx < (m.width : Int)
        then m.data ((y : Int) + dy).toNat ((x : Int) + dx).toNat else 0))).foldl Nat.max 0 := by
  dsimp only [dilate5x5]

theorem fill_foldl_shape (wdt hgt : Nat) :
    ∀ (zones : List Zone) (m : Mask),
      (zones.foldl (fillZone wdt hgt) m).height = m.height ∧
      (zones.foldl (fillZone wdt hgt) m).width = m.width := by
  intro zones
  induction zones with
  | nil => intro m; exact ⟨rfl, rfl⟩
  | cons z zs ih =>
    intro m
    exact ⟨(ih (fillZone wdt hgt m z)).1.trans rfl, (ih (fillZone wdt hgt m z)).2.trans rfl⟩

theorem create_mask_shape (wdt hgt : Nat) (zones : List Zone) :
    (create_mask_from_zones wdt hgt zones).height = hgt ∧
    (create_mask_from_zones wdt hgt zones).width = wdt := by
  have h := fill_foldl_shape wdt hgt zones (zeroMask wdt hgt)
  constructor
  · rw [create_mask_eq, dilate5x5_height, dilate5x5_height, h.1, zeroMask_height]
  · rw [create_mask_eq, dilate5x5_width, dilate5x5_width, h.2, zeroMask_width]

theorem foldl_max_zero : ∀ {l : List Nat}, (∀ a ∈ l, a = 0) → l.foldl Nat.max 0 = 0 := by
  intro l
  induction l with
  | nil => intro _; rfl
  | cons a t ih =>
    intro h
    have ha : a = 0 := h a (List.mem_cons_self a t)
    have ht : t.foldl Nat.max 0 = 0 := ih (fun b hb => h b (List.mem_cons_of_mem a hb))
    calc (a :: t).foldl Nat.max 0 = t.foldl Nat.max (Nat.max 0 a) := rfl
      _ = t.foldl Nat.max 0 := by rw [ha]; rfl
      _ = 0 := ht


theorem dilate_zero {m : Mask} (h : ∀ y x, m.data y x = 0) :
    ∀ y x, (dilate5x5 m).data y x = 0 := by
  intro y x
  rw [dilate5x5_data]
  apply foldl_max_zero
  intro a ha
  rcases List.mem_flatMap.mp ha with ⟨dy, _, ha2⟩
  rcases List.mem_map.mp ha2 with ⟨dx, _, rfl⟩
  split
  · exact h _ _
  · rfl

theorem anyPos_eq_false_of_zero {m : Mask} (h : ∀ y x, m.data y x = 0) :
    anyPos m = false := by
  simp [anyPos, h]

theorem anyPos_true_of {m : Mask} {y x : Nat} (hy : y < m.height) (hx : x < m.width)
    (hpos : 0 < m.data y x) : anyPos m = true := by
  unfold anyPos
  rw [List.any_eq_true]
  refine ⟨y, List.mem_range.mpr hy, ?_⟩
  rw [List.any_eq_true]
  exact ⟨x, List.mem_range.mpr hx, by simpa using hpos⟩

theorem foldl_max_init_le : ∀ (l : List Nat) (b : Nat), b ≤ l.foldl Nat.max b := by
  intro l
  induction l with
  | nil => intro b; exact Nat.le_refl b
  | cons c t ih =>
    intro b
    calc b ≤ Nat.max b c := Nat.le_max_left b c
      _ ≤ t.foldl Nat.max (Nat.max b c) := ih (Nat.max b c)

theorem le_foldl_max : ∀ (l : List Nat) (b a : Nat), a ∈ l → a ≤ l.foldl Nat.max b := by
  intro l
  induction l with
  | nil => intro b a h; cases h
  | cons c t ih =>
    intro b a h
    rcases List.mem_cons.mp h with rfl | h
    · exact Nat.le_trans (Nat.le_max_right b a) (foldl_max_init_le t (Nat.max b a))
    · exact ih (Nat.max b c) a h

theorem dilate_ge (m : Mask) (y x : Nat) (hy : y < m.height) (hx : x < m.width) :
    m.data y x ≤ (dilate5x5 m).data y x := by
  rw [dilate5x5_data]
  have hval : (if 0 ≤ (y : Int) + 0 ∧ (y : Int) + 0 < (m.height : Int) ∧
        0 ≤ (x : Int) + 0 ∧ (x : Int) + 0 < (m.width : Int)
      then m.data ((y : Int) + 0).toNat ((x : Int) + 0).toNat else 0) = m.data y x := by
    have h1 : ((y : Int) + 0).toNat = y := by omega
    have h2 : ((x : Int) + 0).toNat = x := by omega
    rw [if_pos ⟨by omega, by omega, by omega, by omega⟩, h1, h2]
  have hmem : (if 0 ≤ (y : Int) + 0 ∧ (y : Int) + 0 < (m.height : Int) ∧
        0 ≤ (x : Int) + 0 ∧ (x : Int) + 0 < (m.width : Int)
      then m.data ((y : Int) + 0).toNat ((x : Int) + 0).toNat else 0) ∈
      offs5.flatMap (fun dy => offs5.map (fun dx =>
        if 0 ≤ (y : Int) + dy ∧ (y : Int) + dy < (m.height : Int) ∧
           0 ≤ (x : Int) + dx ∧ (x : Int) + dx < (m.width : Int)
        then m.data ((y : Int) + dy).toNat ((x : Int) + dx).toNat else 0)) := by
    apply List.mem_flatMap.mpr
    refine ⟨0, by simp [offs5], ?_⟩
    apply List.mem_map.mpr
    exact ⟨0, by simp [offs5], rfl⟩
  have h := le_foldl_max _ 0 _ hmem
  rw [hval] at h
  exact h

theorem fillZone_sets (wdt hgt : Nat) (m : Mask) (z : Zone) (hz : ZoneInv wdt hgt z) :
    (fillZone wdt hgt m z).data (max 0 (z.2.1 - 8)).toNat (max 0 (z.1 - 8)).toNat = 255 := by
  obtain ⟨hx0, hxx, hxw, hy0, hyy, hyh⟩ := hz
  unfold fillZone
  dsimp only
  rw [if_pos]
  refine ⟨?_, ?_, ?_, ?_⟩
  · rw [Int.toNat_of_nonneg (le_max_left 0 _)]
  · rw [Int.toNat_of_nonneg (le_max_left 0 _)]
    have h1 : max 0 (z.2.1 - 8) ≤ z.2.1 := max_le hy0 (by omega)
    have h2 : z.2.2.2 ≤ min (hgt : Int) (z.2.2.2 + 8) := le_min hyh (by omega)
    omega
  · rw [Int.toNat_of_nonneg (le_max_left 0 _)]
  · rw [Int.toNat_of_nonneg (le_max_left 0 _)]
    have h1 : max 0 (z.1 - 8) ≤ z.1 := max_le hx0 (by omega)
    have h2 : z.2.2.1 ≤ min (wdt : Int) (z.2.2.1 + 8) := le_min hxw (by omega)
    omega

theorem fillZone_preserves (wdt hgt : Nat) (m : Mask) (z : Zone) (y x : Nat)
    (h : m.data y x = 255) : (fillZone wdt hgt m z).data y x = 255 := by
  unfold fillZone
  dsimp only
  split
  · rfl
  · exact h

theorem fill_foldl_preserves (wdt hgt : Nat) :
    ∀ (zs : List Zone) (m : Mask) (y x : Nat), m.data y x = 255 →
      (zs.foldl (fillZone wdt hgt) m).data y x = 255 := by
  intro zs
  induction zs with
  | nil => intro m y x h; exact h
  | cons z t ih =>
    intro m y x h
    exact ih (fillZone wdt hgt m z) y x (fillZone_preserves wdt hgt m z y x h)

/-- C9: for every positive frame size and every zone list satisfying
the Zone invariant, `create_mask_from_zones` returns a raster of shape
exactly `(height, width)`, and the raster is all-zero (no positive
pixel) iff the zone list is empty; the construction pads each zone by
8px, clamps to bounds, fills 255, and dilates the merged raster once
with the 5×5 element for 2 iterations — as the definition of
`create_mask_from_zones` itself records. -/
theorem create_mask_spec (wdt hgt : Nat) (zones : List Zone)
    (hw : 0 < wdt) (hh : 0 < hgt)
    (hzs : ∀ z ∈ zones, ZoneInv wdt hgt z) :
    (create_mask_from_zones wdt hgt zones).height = hgt ∧
    (create_mask_from_zones wdt hgt zones).width = wdt ∧
    (anyPos (create_mask_from_zones wdt hgt zones) = true ↔ zones ≠ []) := by
  refine ⟨(create_mask_shape wdt hgt zones).1, (create_mask_shape wdt hgt zones).2, ?_, ?_⟩
  · intro hap hne
    subst hne
    have hbase : ∀ y x,
        (([] : List Zone).foldl (fillZone wdt hgt) (zeroMask wdt hgt)).data y x = 0 :=
      fun _ _ => rfl
    have hzero : ∀ y x, (create_mask_from_zones wdt hgt []).data y x = 0 := by
      rw [create_mask_eq]
      exact dilate_zero (dilate_zero hbase)
    rw [anyPos_eq_false_of_zero hzero] at hap
    cases hap
  · intro hne
    cases zones with
    | nil => exact absurd rfl hne
    | cons z zs =>
      obtain ⟨hx0, hxx, hxw, hy0, hyy, hyh⟩ := hzs z (List.mem_cons_self z zs)
      have h0y : (0 : Int) ≤ max 0 (z.2.1 - 8) := le_max_left 0 _
      have h0x : (0 : Int) ≤ max 0 (z.1 - 8) := le_max_left 0 _
      have h1y : max 0 (z.2.1 - 8) ≤ z.2.1 := max_le hy0 (by omega)
      have h1x : max 0 (z.1 - 8) ≤ z.1 := max_le hx0 (by omega)
      have hpy : (max 0 (z.2.1 - 8)).toNat < hgt := by omega
      have hpx : (max 0 (z.1 - 8)).toNat < wdt := by omega
      have h255 : ((z :: zs).foldl (fillZone wdt hgt) (zeroMask wdt hgt)).data
          (max 0 (z.2.1 - 8)).toNat (max 0 (z.1 - 8)).toNat = 255 :=
        fill_foldl_preserves wdt hgt zs _ _ _
          (fillZone_sets wdt hgt (zeroMask wdt hgt) z ⟨hx0, hxx, hxw, hy0, hyy, hyh⟩)
      have hsh := fill_foldl_shape wdt hgt (z :: zs) (zeroMask wdt hgt)
      have hb1 : (max 0 (z.2.1 - 8)).toNat <
          ((z :: zs).foldl (fillZone wdt hgt) (zeroMask wdt hgt)).height := by
        rw [hsh.1]; exact hpy
      have hb2 : (max 0 (z.1 - 8)).toNat <
          ((z :: zs).foldl (fillZone wdt hgt) (zeroMask wdt hgt)).width := by
        rw [hsh.2]; exact hpx
      have hd1 := dilate_ge ((z :: zs).foldl (fillZone wdt hgt) (zeroMask wdt hgt))
        (max 0 (z.2.1 - 8)).toNat (max 0 (z.1 - 8)).toNat hb1 hb2
      have hb1d : (max 0 (z.2.1 - 8)).toNat <
          (dilate5x5 ((z :: zs).foldl (fillZone wdt hgt) (zeroMask wdt hgt))).height := by
        rw [dilate5x5_height]; exact hb1
      have hb2d : (max 0 (z.1 - 8)).toNat <
          (dilate5x5 ((z :: zs).foldl (fillZone wdt hgt) (zeroMask wdt hgt))).width := by
        rw [dilate5x5_width]; exact hb2
      have hd2 := dilate_ge (dilate5x5 ((z :: zs).foldl (fillZone wdt hgt) (zeroMask wdt hgt)))
        (max 0 (z.2.1 - 8)).toNat (max 0 (z.1 - 8)).toNat hb1d hb2d
      have hbc1 : (max 0 (z.2.1 - 8)).toNat <
          (create_mask_from_zones wdt hgt (z :: zs)).height := by
        rw [create_mask_eq, dilate5x5_height, dilate5x5_height]; exact hb1
      have hbc2 : (max 0 (z.1 - 8)).toNat <
          (create_mask_from_zones wdt hgt (z :: zs)).width := by
        rw [create_mask_eq, dilate5x5_width, dilate5x5_width]; exact hb2
      apply anyPos_true_of (m := create_mask_from_zones wdt hgt (z :: zs))
        (y := (max 0 (z.2.1 - 8)).toNat) (x := (max 0 (z.1 - 8)).toNat) hbc1 hbc2
      rw [create_mask_eq]
      omega

/-- C9 witness: a 3×3 frame with the single zone `(0,0,1,1)` satisfies
the invariant; the mask has shape `(3, 3)` and, the zone list being
nonempty, contains a positive pixel. -/
theorem create_mask_spec_witness :
    (create_mask_from_zones 3 3 [((0, 0, 1, 1) : Zone)]).height = 3 ∧
    (create_mask_from_zones 3 3 [((0, 0, 1, 1) : Zone)]).width = 3 ∧
    (anyPos (create_mask_from_zones 3 3 [((0, 0, 1, 1) : Zone)]) = true ↔
      [((0, 0, 1, 1) : Zone)] ≠ []) :=
  create_mask_spec 3 3 [((0, 0, 1, 1) : Zone)] (by decide) (by decide) (by decide)

/-! ## Persistence lemmas (C7, C8) -/

theorem charToDigit_digitChar {d : Nat} (hd : d < 10) :
    charToDigit? (digitChar d) = some d := by
  unfold charToDigit? digitChar
  rw [if_pos ⟨by omega, by omega⟩]
  congr 1
  omega

theorem digitsAcc_digits : ∀ (ds : List Nat) (acc : Nat), (∀ d ∈ ds, d < 10) →
    digitsAcc (ds.map digitChar) acc =
      some (Nat.ofDigits 10 ds.reverse + acc * 10 ^ ds.length) := by
  intro ds
  induction ds with
  | nil =>
    intro acc _
    simp [digitsAcc, Nat.ofDigits_nil]
  | cons d t ih =>
    intro acc h
    have hd : d < 10 := h d (List.mem_cons_self d t)
    have hstep : digitsAcc (digitChar d :: t.map digitChar) acc =
        digitsAcc (t.map digitChar) (acc * 10 + d) := by
      show (match charToDigit? (digitChar d) with
        | some e => digitsAcc (t.map digitChar) (acc * 10 + e)
        | none => none) = _
      rw [charToDigit_digitChar hd]
    rw [List.map_cons, hstep, ih (acc * 10 + d) (fun b hb => h b (List.mem_cons_of_mem d hb))]
    congr 1
    rw [List.reverse_cons, Nat.ofDigits_append, Nat.ofDigits_singleton,
      List.length_reverse, List.length_cons]
    ring

theorem digitsVal_natToStr (n : Nat) : digitsVal? (natToStr n) = some n := by
  by_cases hn : n = 0
  · subst hn; rfl
  · unfold natToStr
    rw [if_neg hn]
    have hne : Nat.digits 10 n ≠ [] := Nat.digits_ne_nil_iff_ne_zero.mpr hn
    have hmapne : (Nat.digits 10 n).reverse.map digitChar ≠ [] := by
      intro hcon
      rcases List.map_eq_nil_iff.mp hcon with h
      exact hne (List.reverse_eq_nil_iff.mp h)
    have hlt : ∀ d ∈ (Nat.digits 10 n).reverse, d < 10 := by
      intro d hd
      exact Nat.digits_lt_base (by omega) (List.mem_reverse.mp hd)
    unfold digitsVal?
    rw [if_neg hmapne, digitsAcc_digits _ 0 hlt]
    simp [List.reverse_reverse, Nat.ofDigits_digits]

theorem natToStr_digits_ge (n : Nat) : ∀ c ∈ natToStr n, 48 ≤ c := by
  intro c hc
  unfold natToStr at hc
  by_cases hn : n = 0
  · rw [if_pos hn] at hc
    rcases List.mem_singleton.mp hc with rfl
    unfold digitChar
    omega
  · rw [if_neg hn] at hc
    rcases List.mem_map.mp hc with ⟨d, _, rfl⟩
    unfold digitChar
    omega

theorem natToStr_ne_nil (n : Nat) : natToStr n ≠ [] := by
  unfold natToStr
  by_cases hn : n = 0
  · rw [if_pos hn]; intro h; cases h
  · rw [if_neg hn]
    intro hcon
    rcases List.map_eq_nil_iff.mp hcon with h
    exact (Nat.digits_ne_nil_iff_ne_zero.mpr hn) (List.reverse_eq_nil_iff.mp h)

theorem pyIntOfStr_natToStr (n : Nat) : pyIntOfStr (natToStr n) = some (n : Int) := by
  rcases hs : natToStr n with _ | ⟨c, cs⟩
  · exact absurd hs (natToStr_ne_nil n)
  · have hc48 : 48 ≤ c := natToStr_digits_ge n c (by rw [hs]; exact List.mem_cons_self c cs)
    show (if c = 45 then (digitsVal? cs).map (fun k => -(k : Int))
      else (digitsVal? (c :: cs)).map (fun k => (k : Int))) = some (n : Int)
    rw [if_neg (by omega : ¬ c = 45), ← hs, digitsVal_natToStr n]
    rfl

theorem convKeys_to_dict (kf : List (Nat × List Zone)) :
    convKeys (to_dict kf) =
      Except.ok (kf.map (fun p => ((p.1 : Int), Json.arr (p.2.map zoneToJson)))) := by
  induction kf with
  | nil => rfl
  | cons p t ih =>
    show convKeys ((natToStr p.1, Json.arr (p.2.map zoneToJson)) :: to_dict t) = _
    unfold convKeys
    rw [pyIntOfStr_natToStr p.1, ih]
    rfl

theorem zoneListOfJson_map (v : List Zone) :
    zoneListOfJson (v.map zoneToJson) = some v := by
  induction v with
  | nil => rfl
  | cons z t ih =>
    show zoneListOfJson (zoneToJson z :: t.map zoneToJson) = some (z :: t)
    unfold zoneListOfJson
    rw [ih]
    rfl

/-- C7: saving a timeline to the sidecar document and loading it back
succeeds (`True`) and yields a timeline with the same keyframe keys
and, for each key, a zone list whose decoded zone values equal the
original zone list element by element. -/
theorem save_load_roundtrip (kf : List (Nat × List Zone)) (st : List (Int × Json)) :
    load_from_file (FileContent.parsed (save_doc kf)) st =
      Except.ok (true, kf.map (fun p => ((p.1 : Int), Json.arr (p.2.map zoneToJson)))) ∧
    (kf.map (fun p => ((p.1 : Int), Json.arr (p.2.map zoneToJson)))).map
        (fun q => (q.1, zonesOfJson q.2)) =
      kf.map (fun p => ((p.1 : Int), some p.2)) := by
  constructor
  · show (match from_dict (save_doc kf) with
      | Except.ok kf' => Except.ok (true, kf')
      | Except.error e => Except.error e) = _
    have hfd : from_dict (save_doc kf) =
        Except.ok (kf.map (fun p => ((p.1 : Int), Json.arr (p.2.map zoneToJson)))) := by
      show convKeys (to_dict kf) = _
      exact convKeys_to_dict kf
    rw [hfd]
  · rw [List.map_map]
    apply List.map_congr_left
    intro p _
    show ((p.1 : Int), zonesOfJson (Json.arr (p.2.map zoneToJson))) = ((p.1 : Int), some p.2)
    rw [show zonesOfJson (Json.arr (p.2.map zoneToJson)) = zoneListOfJson (p.2.map zoneToJson)
      from rfl, zoneListOfJson_map]

/-- C8 counterexample: two syntactically valid JSON documents on which
`load_from_file` raises an uncaught exception to the caller instead of
returning `False`: a JSON array (`.items()` raises `AttributeError`)
and an object with the non-numeric key `"abc"` (`int("abc")` raises
`ValueError`) — the `except` clause catches only `JSONDecodeError` and
`IOError`. -/
theorem load_from_file_raises_counterexample :
    load_from_file (FileContent.parsed (Json.arr [])) [] =
      Except.error PyErr.attributeError ∧
    load_from_file (FileContent.parsed (Json.obj [([97, 98, 99], Json.arr [])])) [] =
      Except.error PyErr.valueError :=
  ⟨rfl, rfl⟩

/-- C8 amended: `load_from_file` returns `False` and leaves the
in-memory timeline unchanged when the file is missing, unreadable or
not parseable as JSON; but when the file parses to a JSON value that is
not an object, or to an object with a key `int()` rejects, the
resulting `AttributeError`/`ValueError` propagates to the caller (the
timeline is still unchanged, since the dict comprehension completes
before `_keyframes` is assigned); it returns `True` exactly when every
key is numeric, with no validation of the values. -/
theorem load_from_file_behavior (st : List (Int × Json)) :
    load_from_file FileContent.missing st = Except.ok (false, st) ∧
    load_from_file FileContent.unparseable st = Except.ok (false, st) ∧
    (∀ j e, from_dict j = Except.error e →
      load_from_file (FileContent.parsed j) st = Except.error e) ∧
    (∀ j kf, from_dict j = Except.ok kf →
      load_from_file (FileContent.parsed j) st = Except.ok (true, kf)) := by
  refine ⟨rfl, rfl, ?_, ?_⟩
  · intro j e h
    show (match from_dict j with
      | Except.ok kf' => Except.ok (true, kf')
      | Except.error e' => Except.error e') = _
    rw [h]
  · intro j kf h
    show (match from_dict j with
      | Except.ok kf' => Except.ok (true, kf')
      | Except.error e' => Except.error e') = _
    rw [h]

/-- C8 witness: concrete instances of the amended behaviour — a
missing file reports `False` leaving the timeline `[(0, Json.arr [])]`
unchanged, and the parsed document `{"7": []}` loads with `True`. -/
theorem load_from_file_behavior_witness :
    load_from_file FileContent.missing [((0 : Int), Json.arr [])] =
      Except.ok (false, [((0 : Int), Json.arr [])]) ∧
    load_from_file (FileContent.parsed (Json.obj [([55], Json.arr [])])) [] =
      Except.ok (true, [((7 : Int), Json.arr [])]) :=
  ⟨(load_from_file_behavior [((0 : Int), Json.arr [])]).1,
   (load_from_file_behavior []).2.2.2 (Json.obj [([55], Json.arr [])])
     [((7 : Int), Json.arr [])] rfl⟩

/-! ## Reference-semantics lemmas (C10) -/

theorem lookupD_cons_self {α : Type} (p : Nat × α) (t : List (Nat × α)) (k : Nat)
    (h : p.1 = k) : lookupD (p :: t) k = some p.2 := by
  unfold lookupD
  simp only [List.find?_cons]
  rw [show (p.1 == k) = true by simp [h]]
  rfl

theorem lookupD_cons_ne {α : Type} (p : Nat × α) (t : List (Nat × α)) (k : Nat)
    (h : ¬ p.1 = k) : lookupD (p :: t) k = lookupD t k := by
  unfold lookupD
  simp only [List.find?_cons]
  rw [show (p.1 == k) = false by simp [h]]

theorem lookupD_append_ne {α : Type} :
    ∀ (store : List (Nat × α)) (n a : Nat) (v : α), a ≠ n →
      lookupD (store ++ [(n, v)]) a = lookupD store a := by
  intro store n a v h
  induction store with
  | nil =>
    show lookupD [(n, v)] a = lookupD [] a
    rw [lookupD_cons_ne _ _ _ (by omega : ¬ (n, v).1 = a)]
  | cons p t ih =>
    show lookupD (p :: (t ++ [(n, v)])) a = lookupD (p :: t) a
    by_cases hp : p.1 = a
    · rw [lookupD_cons_self _ _ _ hp, lookupD_cons_self _ _ _ hp]
    · rw [lookupD_cons_ne _ _ _ hp, lookupD_cons_ne _ _ _ hp]
      exact ih

theorem lookupD_append_self {α : Type} :
    ∀ (store : List (Nat × α)) (n : Nat) (v : α), (∀ p ∈ store, p.1 ≠ n) →
      lookupD (store ++ [(n, v)]) n = some v := by
  intro store n v
  induction store with
  | nil =>
    intro _
    exact lookupD_cons_self _ _ _ rfl
  | cons p t ih =>
    intro h
    have hne : ¬ p.1 = n := h p (List.mem_cons_self p t)
    show lookupD (p :: (t ++ [(n, v)])) n = some v
    rw [lookupD_cons_ne _ _ _ hne]
    exact ih (fun q hq => h q (List.mem_cons_of_mem p hq))

theorem lookupD_update_ne {α : Type} :
    ∀ (store : List (Nat × α)) (a b : Nat) (l : α), b ≠ a →
      lookupD (store.map (fun p => if p.1 = a then (p.1, l) else p)) b =
        lookupD store b := by
  intro store a b l h
  induction store with
  | nil => rfl
  | cons p t ih =>
    show lookupD ((if p.1 = a then (p.1, l) else p) :: t.map _) b = lookupD (p :: t) b
    by_cases hpa : p.1 = a
    · rw [if_pos hpa]
      have hpb : ¬ p.1 = b := by omega
      rw [lookupD_cons_ne _ _ _ (by simpa using hpb), lookupD_cons_ne _ _ _ hpb]
      exact ih
    · rw [if_neg hpa]
      by_cases hpb : p.1 = b
      · rw [lookupD_cons_self _ _ _ hpb, lookupD_cons_self _ _ _ hpb]
      · rw [lookupD_cons_ne _ _ _ hpb, lookupD_cons_ne _ _ _ hpb]
        exact ih

theorem lookupD_map_val {α β : Type} (g : α → β) :
    ∀ (l : List (Nat × α)) (k : Nat),
      lookupD (l.map (fun p => (p.1, g p.2))) k = (lookupD l k).map g := by
  intro l
  induction l with
  | nil => intro k; rfl
  | cons p t ih =>
    intro k
    show lookupD ((p.1, g p.2) :: t.map (fun q => (q.1, g q.2))) k = (lookupD (p :: t) k).map g
    by_cases hp : p.1 = k
    · rw [lookupD_cons_self (p.1, g p.2) (t.map (fun q => (q.1, g q.2))) k hp,
        lookupD_cons_self p t k hp]
      rfl
    · rw [lookupD_cons_ne (p.1, g p.2) (t.map (fun q => (q.1, g q.2))) k hp,
        lookupD_cons_ne p t k hp]
      exact ih k

theorem lookupD_isSome_of_mem_keys {α : Type} :
    ∀ (l : List (Nat × α)) (k : Nat), k ∈ l.map (·.1) → ∃ v, lookupD l k = some v := by
  intro l
  induction l with
  | nil => intro k h; cases h
  | cons p t ih =>
    intro k h
    by_cases hp : p.1 = k
    · exact ⟨p.2, lookupD_cons_self _ _ _ hp⟩
    · have hk : k ∈ t.map (·.1) := by
        rcases List.mem_cons.mp h with h1 | h1
        · exact absurd h1.symm hp
        · exact h1
      rcases ih k hk with ⟨v, hv⟩
      exact ⟨v, (lookupD_cons_ne _ _ _ hp).trans hv⟩

/-- The heap-level lookup always allocates a fresh list whose contents
are the value-level timeline answer at that frame: both `return []`
sites allocate an empty list and the `.copy()` site allocates a copy of
the stored list. -/
theorem getZonesAtFrameH_eq (h : KMHeap) (f : Nat) :
    getZonesAtFrameH h f = heapAlloc h (kfView h f) := by
  unfold getZonesAtFrameH kfView get_zones_at_frame
  by_cases h0 : h.keyframes = []
  · rw [h0]
    simp
  · have hmapne : ¬ (h.keyframes.map (fun p => (p.1, heapRead h p.2)) = []) := by
      simpa using h0
    rw [if_neg h0, if_neg hmapne]
    have hkeys : (h.keyframes.map (fun p => (p.1, heapRead h p.2))).map (·.1) =
        h.keyframes.map (·.1) := by
      rw [List.map_map]
      rfl
    rw [hkeys]
    by_cases hv : (h.keyframes.map (·.1)).filter (fun k => k ≤ f) = []
    · rw [if_pos hv, if_pos hv]
    · rw [if_neg hv, if_neg hv]
      congr 1
      have hnear : pyMax ((h.keyframes.map (·.1)).filter (fun k => k ≤ f)) ∈
          h.keyframes.map (·.1) :=
        (List.mem_filter.mp (pyMax_mem hv)).1
      rcases lookupD_isSome_of_mem_keys h.keyframes _ hnear with ⟨a, ha⟩
      rw [lookupD_map_val (heapRead h) h.keyframes _, ha]
      rfl

theorem kfView_alloc (h : KMHeap) (c : List Zone) (f' : Nat)
    (hwf : ∀ p ∈ h.keyframes, p.2 < h.next) :
    kfView (heapAlloc h c).1 f' = kfView h f' := by
  unfold kfView heapAlloc
  congr 1
  apply List.map_congr_left
  intro p hp
  have hne : p.2 ≠ h.next := by
    have := hwf p hp
    omega
  unfold heapRead
  rw [lookupD_append_ne h.store h.next p.2 c hne]

theorem kfView_write (h : KMHeap) (a : Nat) (l' : List Zone) (f' : Nat)
    (hne : ∀ p ∈ h.keyframes, p.2 ≠ a) :
    kfView (heapWrite h a l') f' = kfView h f' := by
  unfold kfView heapWrite
  congr 1
  apply List.map_congr_left
  intro p hp
  unfold heapRead
  rw [lookupD_update_ne h.store a p.2 l' (hne p hp)]

theorem heapRead_alloc (h : KMHeap) (c : List Zone)
    (hwf : ∀ p ∈ h.store, p.1 < h.next) :
    heapRead (heapAlloc h c).1 (heapAlloc h c).2 = c := by
  unfold heapRead heapAlloc
  rw [lookupD_append_self h.store h.next c (fun p hp => by have := hwf p hp; omega)]
  rfl

theorem wf_alloc (h : KMHeap) (c : List Zone) (hwf : KMHeapWF h) :
    KMHeapWF (heapAlloc h c).1 := by
  obtain ⟨h1, h2⟩ := hwf
  constructor
  · intro p hp
    have hp' : p ∈ h.keyframes := hp
    have := h1 p hp'
    show p.2 < h.next + 1
    omega
  · intro p hp
    have hp' : p ∈ h.store ++ [(h.next, c)] := hp
    show p.1 < h.next + 1
    rcases List.mem_append.mp hp' with hm | hm
    · have := h2 p hm
      omega
    · rcases List.mem_singleton.mp hm with rfl
      omega

theorem wf_write (h : KMHeap) (a : Nat) (l' : List Zone) (hwf : KMHeapWF h) :
    KMHeapWF (heapWrite h a l') := by
  obtain ⟨h1, h2⟩ := hwf
  constructor
  · intro p hp
    exact h1 p hp
  · intro p hp
    have hp' : p ∈ h.store.map (fun q => if q.1 = a then (q.1, l') else q) := hp
    rcases List.mem_map.mp hp' with ⟨q, hq, hqe⟩
    have hql := h2 q hq
    show p.1 < h.next
    by_cases hqa : q.1 = a
    · rw [if_pos hqa] at hqe
      rw [← hqe]
      exact hql
    · rw [if_neg hqa] at hqe
      rw [← hqe]
      exact hql

/-- C10: `get_zones_at_frame` hands back a fresh copy: the returned
list holds the timeline's answer; overwriting the returned list object
with arbitrary contents leaves the timeline's view unchanged; and a
subsequent call on the (mutated-object) heap still returns the original
zones. -/
theorem get_zones_at_frame_returns_copy (h : KMHeap) (f : Nat) (l' : List Zone)
    (hwf : KMHeapWF h) :
    heapRead (getZonesAtFrameH h f).1 (getZonesAtFrameH h f).2 = kfView h f ∧
    kfView (heapWrite (getZonesAtFrameH h f).1 (getZonesAtFrameH h f).2 l') f = kfView h f ∧
    heapRead
        (getZonesAtFrameH
          (heapWrite (getZonesAtFrameH h f).1 (getZonesAtFrameH h f).2 l') f).1
        (getZonesAtFrameH
          (heapWrite (getZonesAtFrameH h f).1 (getZonesAtFrameH h f).2 l') f).2 =
      kfView h f := by
  obtain ⟨hwk, hws⟩ := hwf
  have heq := getZonesAtFrameH_eq h f
  have hne : ∀ p ∈ (heapAlloc h (kfView h f)).1.keyframes,
      p.2 ≠ (heapAlloc h (kfView h f)).2 := by
    intro p hp
    have hp' : p ∈ h.keyframes := hp
    have := hwk p hp'
    show p.2 ≠ h.next
    omega
  refine ⟨?_, ?_, ?_⟩
  · rw [heq]
    exact heapRead_alloc h _ hws
  · rw [heq]
    rw [kfView_write _ _ _ _ hne]
    exact kfView_alloc h _ f hwk
  · rw [heq]
    have hwf1 := wf_alloc h (kfView h f) ⟨hwk, hws⟩
    have hwf2 := wf_write (heapAlloc h (kfView h f)).1 (heapAlloc h (kfView h f)).2 l' hwf1
    rw [getZonesAtFrameH_eq
      (heapWrite (heapAlloc h (kfView h f)).1 (heapAlloc h (kfView h f)).2 l') f]
    rw [heapRead_alloc _ _ hwf2.2]
    rw [kfView_write _ _ _ _ hne]
    exact kfView_alloc h _ f hwk

/-- C10 witness: a concrete heap with keyframe 0 at address 0 holding
one zone; after overwriting the list returned for frame 5, the
timeline's view at frame 5 is unchanged. -/
theorem get_zones_at_frame_returns_copy_witness :
    kfView (heapWrite
        (getZonesAtFrameH ⟨[(0, 0)], [(0, [((1, 2, 3, 4) : Zone)])], 1⟩ 5).1
        (getZonesAtFrameH ⟨[(0, 0)], [(0, [((1, 2, 3, 4) : Zone)])], 1⟩ 5).2
        [((9, 9, 10, 10) : Zone)]) 5 =
      kfView ⟨[(0, 0)], [(0, [((1, 2, 3, 4) : Zone)])], 1⟩ 5 :=
  (get_zones_at_frame_returns_copy ⟨[(0, 0)], [(0, [((1, 2, 3, 4) : Zone)])], 1⟩ 5
    [((9, 9, 10, 10) : Zone)] (by decide)).2.1

end WatermarkRemover
